import Mathlib

/-!
Shallow embedding of `pipe.go` from the `streams` repository.

The router (`processorPipe`) owns an ordered list of downstream consumers
(`children []Pump`) and a `duration time.Duration` accumulator.  Every
operation body is wrapped by `defer p.time(time.Now())`, which adds the
elapsed wall-clock time of the whole body to the accumulator on every exit
path (normal return, early error return, and panic, since Go runs deferred
calls while a panic unwinds).  We model that elapsed time as an explicit
`Nat` parameter `δ` supplied by the environment (Go's monotonic clock makes
`time.Since` non-negative); the accumulator itself mirrors
`time.Duration = int64`: it is an `Int` kept in the int64 range, and the
`+=` accrual wraps two's-complement on overflow (`wrap64`), as Go's signed
integer addition does.

Go `error` values are modelled by `Option Err` for an arbitrary error type
`Err` (`none` = nil = success); the single error value created by
`errors.New("streams: child index out of bounds")` is a designated
parameter `be : Err`.  Each operation is instrumented to also return the
trace of collaborator invocations it performed, which is exactly the
observable behaviour of the Go code (the sequence of `child.Process` /
`s.Commit` calls).
-/

namespace Streams

/-- Modelled from the spec: the `Message` type is declared outside the
source fragment.  Per the spec's data model it carries an immutable payload
and a mapping (data source → commit token) with unique keys; the list holds
the map's entries in the (implementation-defined) iteration order that a
`range` over the Go map would produce. -/
structure Message (P Src Tok : Type) where
  payload : P
  metadata : List (Src × Tok)

/-- Modelled from the spec: `Metadata() -> mapping(Data Source -> token)`,
the message's single read accessor. -/
def Message.Metadata {P Src Tok : Type} (m : Message P Src Tok) : List (Src × Tok) :=
  m.metadata

/-- Modelled from the spec: a downstream consumer (`Pump`) has the single
operation `Process(msg) -> error-or-success`; an interface value is modelled
by its `Process` behaviour. -/
def Pump (P Src Tok Err : Type) : Type :=
  Message P Src Tok → Option Err

/-- Two's-complement reduction of an integer into Go's int64 range
`[-2^63, 2^63)`: the result of a Go int64 operation whose mathematical
value is `n`.  Go defines signed integer overflow to wrap. -/
def wrap64 (n : Int) : Int :=
  (n + 2 ^ 63) % 2 ^ 64 - 2 ^ 63

/-- Struct `processorPipe` from `pipe.go`: the ordered consumer list fixed at
construction and the accumulative duration (`time.Duration`, an int64 —
every write keeps the field in the int64 range). -/
structure processorPipe (P Src Tok Err : Type) where
  children : List (Pump P Src Tok Err)
  duration : Int

/-- Constructor `NewPipe`: builds the pipe from its children; the Go struct literal
leaves `duration` at its zero value. -/
def NewPipe {P Src Tok Err : Type} (children : List (Pump P Src Tok Err)) :
    processorPipe P Src Tok Err :=
  { children := children, duration := 0 }

/-- Method `Reset`: `p.duration = 0`. -/
def processorPipe.Reset {P Src Tok Err : Type} (p : processorPipe P Src Tok Err) :
    processorPipe P Src Tok Err :=
  { p with duration := 0 }

/-- Method `Duration`: `return p.duration` (the method body only reads the field,
so it is embedded as a pure projection). -/
def processorPipe.Duration {P Src Tok Err : Type} (p : processorPipe P Src Tok Err) : Int :=
  p.duration

/-- The loop body of `Forward`: walk the children in order, calling
`child.Process(msg)`, returning the first error.  `i` is the position of
the head of the remaining list; the first component is the trace of
invoked positions. -/
def forwardAux {P Src Tok Err : Type} (m : Message P Src Tok) :
    List (Pump P Src Tok Err) → Nat → List Nat × Option Err
  | [], _ => ([], none)
  | child :: rest, i =>
    match child m with
    | some err => ([i], some err)
    | none =>
      let r := forwardAux m rest (i + 1)
      (i :: r.1, r.2)

/-- Method `Forward(msg)`: fan out to all children in order, fail fast; the
deferred `p.time` call adds the body's elapsed time `δ` on every path,
with int64 wraparound (`p.duration += time.Since(t)`).
Returns (trace of invoked child positions, returned error, new state). -/
def processorPipe.Forward {P Src Tok Err : Type} (p : processorPipe P Src Tok Err)
    (m : Message P Src Tok) (δ : Nat) :
    List Nat × Option Err × processorPipe P Src Tok Err :=
  let r := forwardAux m p.children 0
  (r.1, r.2, { p with duration := wrap64 (p.duration + δ) })

/-- How a call to `ForwardToChild` can finish: with a returned Go `error`
value (possibly nil), or by panicking — in Go, indexing a slice with a
negative index panics at runtime instead of returning. -/
inductive Outcome (Err : Type) where
  | ret (r : Option Err)
  | panics
deriving DecidableEq

/-- Method `ForwardToChild(msg, index)`: the source checks only
`index > len(p.children)-1` (Go `int` arithmetic, hence `Int` here) and
then evaluates `p.children[index]`.  A negative index passes the check and
the indexing panics; the deferred `p.time` still runs while the panic
unwinds, so `δ` is accrued on every path.  `be` is the error value built by
`errors.New("streams: child index out of bounds")`. -/
def processorPipe.ForwardToChild {P Src Tok Err : Type} (be : Err)
    (p : processorPipe P Src Tok Err) (m : Message P Src Tok) (index : Int) (δ : Nat) :
    List Nat × Outcome Err × processorPipe P Src Tok Err :=
  let p' : processorPipe P Src Tok Err := { p with duration := wrap64 (p.duration + δ) }
  if index > (p.children.length : Int) - 1 then
    ([], Outcome.ret (some be), p')
  else if index < 0 then
    ([], Outcome.panics, p')
  else
    match p.children[index.toNat]? with
    | some child => ([index.toNat], Outcome.ret (child m), p')
    | none => ([], Outcome.panics, p')

/-- The loop body of `Commit`: iterate the metadata entries, calling
`s.Commit(v)` on each, returning the first error.  `commitFn s v` is the
behaviour of data-source interface value `s` on token `v` (modelled from
the spec: `Commit(token) -> error-or-success`).  The first component is the
trace of (source, token) invocations performed. -/
def commitAux {Src Tok Err : Type} (commitFn : Src → Tok → Option Err) :
    List (Src × Tok) → List (Src × Tok) × Option Err
  | [] => ([], none)
  | (s, v) :: rest =>
    match commitFn s v with
    | some err => ([(s, v)], some err)
    | none =>
      let r := commitAux commitFn rest
      ((s, v) :: r.1, r.2)

/-- Method `Commit(msg)`: acknowledge every (source, token) entry of the message's
metadata, fail fast; the deferred `p.time` adds `δ` on every path. -/
def processorPipe.Commit {P Src Tok Err : Type} (commitFn : Src → Tok → Option Err)
    (p : processorPipe P Src Tok Err) (m : Message P Src Tok) (δ : Nat) :
    List (Src × Tok) × Option Err × processorPipe P Src Tok Err :=
  let r := commitAux commitFn m.Metadata
  (r.1, r.2, { p with duration := wrap64 (p.duration + δ) })

/-- One call on the router, for reasoning about call sequences.  The timed
operations carry the wall-clock time `δ` their body consumed. -/
inductive Call (P Src Tok : Type) where
  | forward (m : Message P Src Tok) (δ : Nat)
  | forwardToChild (m : Message P Src Tok) (index : Int) (δ : Nat)
  | commit (m : Message P Src Tok) (δ : Nat)
  | reset
  | durationRead

/-- The wall-clock time consumed by a call's body (0 for the untimed
`Reset`/`Duration` accessors, which do not accrue). -/
def Call.elapsed {P Src Tok : Type} : Call P Src Tok → Nat
  | .forward _ δ => δ
  | .forwardToChild _ _ δ => δ
  | .commit _ δ => δ
  | .reset => 0
  | .durationRead => 0

/-- Whether the call is one of the three timed operations
(`Forward`/`ForwardToChild`/`Commit`). -/
def Call.isTimed {P Src Tok : Type} : Call P Src Tok → Bool
  | .forward _ _ => true
  | .forwardToChild _ _ _ => true
  | .commit _ _ => true
  | .reset => false
  | .durationRead => false

/-- The state transition of one call (`Duration` is a pure read and leaves
the state unchanged). -/
def stepCall {P Src Tok Err : Type} (be : Err) (commitFn : Src → Tok → Option Err)
    (p : processorPipe P Src Tok Err) : Call P Src Tok → processorPipe P Src Tok Err
  | .forward m δ => (p.Forward m δ).2.2
  | .forwardToChild m i δ => (processorPipe.ForwardToChild be p m i δ).2.2
  | .commit m δ => (processorPipe.Commit commitFn p m δ).2.2
  | .reset => p.Reset
  | .durationRead => p

/-- Run a sequence of calls from a starting state. -/
def runCalls {P Src Tok Err : Type} (be : Err) (commitFn : Src → Tok → Option Err)
    (p : processorPipe P Src Tok Err) (cs : List (Call P Src Tok)) :
    processorPipe P Src Tok Err :=
  cs.foldl (stepCall be commitFn) p

/-! ### Helper lemmas about the fail-fast loops -/

/-- A value already in the int64 range is unchanged by the reduction. -/
lemma wrap64_eq_self (n : Int) (h1 : -(2 ^ 63) ≤ n) (h2 : n < 2 ^ 63) :
    wrap64 n = n := by
  unfold wrap64
  omega

/-- The reduction only depends on the residue mod `2^64`: wrapping an
already-wrapped left summand gives the same result as wrapping the
mathematical sum. -/
lemma wrap64_add_left (a b : Int) : wrap64 (wrap64 a + b) = wrap64 (a + b) := by
  unfold wrap64
  omega

/-- If every consumer succeeds on `m`, the `Forward` loop invokes all of
them in order and returns nil. -/
lemma forwardAux_all_ok {P Src Tok Err : Type} (m : Message P Src Tok) :
    ∀ (children : List (Pump P Src Tok Err)) (i : Nat),
      (∀ c ∈ children, c m = none) →
      forwardAux m children i = (List.range' i children.length, none)
  | [], i, _ => by simp [forwardAux]
  | child :: rest, i, h => by
    have hc : child m = none := h child (by simp)
    have ih := forwardAux_all_ok m rest (i + 1) (fun c hcm => h c (by simp [hcm]))
    simp [forwardAux, hc, ih, List.range'_succ]

/-- If every consumer in `pre` succeeds on `m` and `c` fails with `e`, the
`Forward` loop invokes exactly positions `i .. i + pre.length` and returns
`e`. -/
lemma forwardAux_first_fail {P Src Tok Err : Type} (m : Message P Src Tok) (e : Err) :
    ∀ (pre : List (Pump P Src Tok Err)) (c : Pump P Src Tok Err)
      (post : List (Pump P Src Tok Err)) (i : Nat),
      (∀ x ∈ pre, x m = none) → c m = some e →
      forwardAux m (pre ++ c :: post) i = (List.range' i (pre.length + 1), some e)
  | [], c, post, i, _, hc => by simp [forwardAux, hc, List.range'_succ]
  | x :: pre, c, post, i, hpre, hc => by
    have hx : x m = none := hpre x (by simp)
    have ih := forwardAux_first_fail m e pre c post (i + 1)
      (fun y hy => hpre y (by simp [hy])) hc
    simp [forwardAux, hx, ih, List.range'_succ]

/-- If the `Forward` loop returns nil, every consumer succeeded on `m`. -/
lemma forwardAux_ok_all {P Src Tok Err : Type} (m : Message P Src Tok) :
    ∀ (children : List (Pump P Src Tok Err)) (i : Nat),
      (forwardAux m children i).2 = none → ∀ c ∈ children, c m = none
  | [], _, _ => by simp
  | child :: rest, i, h => by
    intro c hcmem
    rcases hcm : child m with _ | err
    · rcases List.mem_cons.mp hcmem with hceq | hcmem2
      · simpa [hceq] using hcm
      · exact forwardAux_ok_all m rest (i + 1)
          (by simpa [forwardAux, hcm] using h) c hcmem2
    · exfalso
      simp [forwardAux, hcm] at h

/-- If every entry succeeds, the `Commit` loop acknowledges all entries in
order and returns nil. -/
lemma commitAux_all_ok {Src Tok Err : Type} (commitFn : Src → Tok → Option Err) :
    ∀ entries : List (Src × Tok),
      (∀ st ∈ entries, commitFn st.1 st.2 = none) →
      commitAux commitFn entries = (entries, none)
  | [], _ => by simp [commitAux]
  | (s, v) :: rest, h => by
    have hs : commitFn s v = none := h (s, v) (by simp)
    have ih := commitAux_all_ok commitFn rest (fun st hst => h st (by simp [hst]))
    simp [commitAux, hs, ih]

/-- If every entry of `pre` succeeds and `(s, v)` fails with `e`, the
`Commit` loop acknowledges exactly `pre ++ [(s, v)]` and returns `e`. -/
lemma commitAux_first_fail {Src Tok Err : Type} (commitFn : Src → Tok → Option Err)
    (s : Src) (v : Tok) (e : Err) :
    ∀ (pre post : List (Src × Tok)),
      (∀ st ∈ pre, commitFn st.1 st.2 = none) → commitFn s v = some e →
      commitAux commitFn (pre ++ (s, v) :: post) = (pre ++ [(s, v)], some e)
  | [], post, _, hsv => by simp [commitAux, hsv]
  | (s0, v0) :: pre, post, hpre, hsv => by
    have h0 : commitFn s0 v0 = none := hpre (s0, v0) (by simp)
    have ih := commitAux_first_fail commitFn s v e pre post
      (fun st hst => hpre st (by simp [hst])) hsv
    simp [commitAux, h0, ih]

/-- The trace of the `Commit` loop is always a prefix of the entry list. -/
lemma commitAux_trace_take {Src Tok Err : Type} (commitFn : Src → Tok → Option Err) :
    ∀ entries : List (Src × Tok),
      ∃ n, (commitAux commitFn entries).1 = entries.take n
  | [] => ⟨0, by simp [commitAux]⟩
  | (s, v) :: rest => by
    rcases hsv : commitFn s v with _ | err
    · rcases commitAux_trace_take commitFn rest with ⟨n, hn⟩
      exact ⟨n + 1, by simp [commitAux, hsv, hn]⟩
    · exact ⟨1, by simp [commitAux, hsv]⟩

/-- A valid index hit: if `0 ≤ i` and the consumer list has an element at
position `i.toNat`, then `ForwardToChild` invokes exactly that consumer and
returns its result, accruing `δ`. -/
lemma forwardToChild_hit {P Src Tok Err : Type} (be : Err)
    (p : processorPipe P Src Tok Err) (m : Message P Src Tok) (δ : Nat) (i : Int)
    (c : Pump P Src Tok Err) (h0 : 0 ≤ i) (hc : p.children[i.toNat]? = some c) :
    processorPipe.ForwardToChild be p m i δ =
      ([i.toNat], Outcome.ret (c m), { p with duration := wrap64 (p.duration + δ) }) := by
  have hlt : i.toNat < p.children.length := by
    by_contra hge
    rw [List.getElem?_eq_none (by omega)] at hc
    exact Option.noConfusion hc
  have h1 : ¬ i > (p.children.length : Int) - 1 := by omega
  have h2 : ¬ i < 0 := by omega
  simp [processorPipe.ForwardToChild, h1, h2, hc]

/-- One call changes the accumulator by exactly its body's elapsed time
(with int64 wraparound), except `Reset`, which sets it to 0, and the pure
read `Duration`, which leaves it untouched. -/
lemma stepCall_duration_cases {P Src Tok Err : Type} (be : Err)
    (commitFn : Src → Tok → Option Err) (p : processorPipe P Src Tok Err)
    (c : Call P Src Tok) :
    (c.isTimed = true ∧
        (stepCall be commitFn p c).duration = wrap64 (p.duration + (c.elapsed : Int)))
      ∨ (c = Call.reset ∧ (stepCall be commitFn p c).duration = 0)
      ∨ (c = Call.durationRead ∧ (stepCall be commitFn p c).duration = p.duration) := by
  cases c with
  | forward m δ => exact Or.inl ⟨rfl, rfl⟩
  | commit m δ => exact Or.inl ⟨rfl, rfl⟩
  | forwardToChild m i δ =>
    refine Or.inl ⟨rfl, ?_⟩
    show (processorPipe.ForwardToChild be p m i δ).2.2.duration = _
    unfold processorPipe.ForwardToChild
    dsimp only
    split
    · rfl
    · split
      · rfl
      · split <;> rfl
  | reset => exact Or.inr (Or.inl ⟨rfl, rfl⟩)
  | durationRead => exact Or.inr (Or.inr ⟨rfl, rfl⟩)

/-- No call mutates the consumer list. -/
lemma stepCall_children {P Src Tok Err : Type} (be : Err)
    (commitFn : Src → Tok → Option Err) (p : processorPipe P Src Tok Err)
    (c : Call P Src Tok) :
    (stepCall be commitFn p c).children = p.children := by
  cases c with
  | forward m δ => rfl
  | commit m δ => rfl
  | reset => rfl
  | durationRead => rfl
  | forwardToChild m i δ =>
    show (processorPipe.ForwardToChild be p m i δ).2.2.children = _
    unfold processorPipe.ForwardToChild
    dsimp only
    split
    · rfl
    · split
      · rfl
      · split <;> rfl

/-- Running a sequence of calls never mutates the consumer list. -/
lemma runCalls_children {P Src Tok Err : Type} (be : Err)
    (commitFn : Src → Tok → Option Err) :
    ∀ (cs : List (Call P Src Tok)) (p : processorPipe P Src Tok Err),
      (runCalls be commitFn p cs).children = p.children
  | [], _ => rfl
  | c :: cs, p => by
    have ih := runCalls_children be commitFn cs (stepCall be commitFn p c)
    have hc := stepCall_children be commitFn p c
    simpa [runCalls, List.foldl_cons, hc] using ih

/-- The reduction always lands in the int64 range. -/
lemma wrap64_range (n : Int) : -(2 ^ 63) ≤ wrap64 n ∧ wrap64 n < 2 ^ 63 := by
  unfold wrap64
  omega

/-- As long as the true accumulated total stays below `2^63` no int64
wraparound occurs: starting from a non-negative accumulator, any call
sequence keeps it non-negative and below start plus the total elapsed
time. -/
lemma runCalls_duration_bounded {P Src Tok Err : Type} (be : Err)
    (commitFn : Src → Tok → Option Err) :
    ∀ (cs : List (Call P Src Tok)) (p : processorPipe P Src Tok Err),
      0 ≤ p.duration →
      p.duration + (((cs.map Call.elapsed).sum : Nat) : Int) < 2 ^ 63 →
      0 ≤ (runCalls be commitFn p cs).duration ∧
        (runCalls be commitFn p cs).duration ≤
          p.duration + (((cs.map Call.elapsed).sum : Nat) : Int)
  | [], p, h0, _ => ⟨h0, by simp [runCalls]⟩
  | c :: cs, p, h0, hb => by
    have hcons : ((c :: cs).map Call.elapsed).sum
        = c.elapsed + (cs.map Call.elapsed).sum := by
      simp [List.map_cons, List.sum_cons]
    rw [hcons, Nat.cast_add] at hb
    have hrun : runCalls be commitFn p (c :: cs)
        = runCalls be commitFn (stepCall be commitFn p c) cs := rfl
    rcases stepCall_duration_cases be commitFn p c with ⟨_, heq⟩ | ⟨_, heq⟩ | ⟨_, heq⟩
    · have hin : wrap64 (p.duration + (c.elapsed : Int))
          = p.duration + (c.elapsed : Int) :=
        wrap64_eq_self _ (by omega) (by omega)
      have ih := runCalls_duration_bounded be commitFn cs (stepCall be commitFn p c)
        (by omega) (by omega)
      rw [hrun, hcons, Nat.cast_add]
      exact ⟨ih.1, by omega⟩
    · have ih := runCalls_duration_bounded be commitFn cs (stepCall be commitFn p c)
        (by omega) (by omega)
      rw [hrun, hcons, Nat.cast_add]
      exact ⟨ih.1, by omega⟩
    · have ih := runCalls_duration_bounded be commitFn cs (stepCall be commitFn p c)
        (by omega) (by omega)
      rw [hrun, hcons, Nat.cast_add]
      exact ⟨ih.1, by omega⟩

/-- Over a sequence of timed calls, an in-range accumulator ends at the
int64 reduction of its start plus the total elapsed body time. -/
lemma runCalls_duration_sum {P Src Tok Err : Type} (be : Err)
    (commitFn : Src → Tok → Option Err) :
    ∀ (cs : List (Call P Src Tok)) (p : processorPipe P Src Tok Err),
      (∀ c ∈ cs, c.isTimed = true) →
      -(2 ^ 63) ≤ p.duration → p.duration < 2 ^ 63 →
      (runCalls be commitFn p cs).duration =
        wrap64 (p.duration + (((cs.map Call.elapsed).sum : Nat) : Int))
  | [], p, _, hlo, hhi => by
    simp [runCalls, wrap64_eq_self p.duration hlo hhi]
  | c :: cs, p, h, hlo, hhi => by
    have hct : c.isTimed = true := h c (by simp)
    have hstep : (stepCall be commitFn p c).duration
        = wrap64 (p.duration + (c.elapsed : Int)) := by
      rcases stepCall_duration_cases be commitFn p c with ⟨_, heq⟩ | ⟨hres, _⟩ | ⟨hres, _⟩
      · exact heq
      · rw [hres] at hct; simp [Call.isTimed] at hct
      · rw [hres] at hct; simp [Call.isTimed] at hct
    have ih := runCalls_duration_sum be commitFn cs (stepCall be commitFn p c)
      (fun x hx => h x (by simp [hx]))
      (by rw [hstep]; exact (wrap64_range _).1)
      (by rw [hstep]; exact (wrap64_range _).2)
    have hrun : runCalls be commitFn p (c :: cs)
        = runCalls be commitFn (stepCall be commitFn p c) cs := rfl
    rw [hrun, ih, hstep, wrap64_add_left, List.map_cons, List.sum_cons,
      Nat.cast_add, add_assoc]

/-! ### Claim theorems -/

/-- C1 (counterexample): on a router with one consumer, `ForwardToChild`
with index `-1` does not return the out-of-bounds error (nor any error):
the bounds check `index > len(children)-1` does not fire for a negative
index, and the slice access `p.children[index]` panics. -/
theorem C1_neg_index_panics_cex :
    ((processorPipe.mk [fun _ => none] 0 :
        processorPipe Unit Unit Unit Nat).ForwardToChild 7 ⟨(), []⟩ (-1) 5).2.1 =
      Outcome.panics ∧
    (Outcome.panics : Outcome Nat) ≠ Outcome.ret (some 7) ∧
    (Outcome.panics : Outcome Nat) ≠ Outcome.ret none := by
  exact ⟨rfl, by decide, by decide⟩

/-- C1 (amended): for `index ≥ len(consumers)`, `ForwardToChild` returns
the out-of-bounds error and invokes no consumer; for `index < 0` the
bounds check does not fire and the slice access panics — no consumer is
invoked and no error is returned.  Both paths accrue the body's elapsed
time. -/
theorem C1_out_of_bounds {P Src Tok Err : Type} (be : Err)
    (p : processorPipe P Src Tok Err) (m : Message P Src Tok) (δ : Nat) (i : Int) :
    ((p.children.length : Int) ≤ i →
      processorPipe.ForwardToChild be p m i δ =
        ([], Outcome.ret (some be), { p with duration := wrap64 (p.duration + δ) }))
    ∧ (i < 0 →
      processorPipe.ForwardToChild be p m i δ =
        ([], Outcome.panics, { p with duration := wrap64 (p.duration + δ) })) := by
  constructor
  · intro h
    have h1 : i > (p.children.length : Int) - 1 := by omega
    simp [processorPipe.ForwardToChild, h1]
  · intro h
    have h1 : ¬ i > (p.children.length : Int) - 1 := by omega
    simp [processorPipe.ForwardToChild, h1, h]

/-- C1 witness: a router with two consumers, at indices 2 and -1. -/
theorem C1_out_of_bounds_witness :
    (processorPipe.ForwardToChild 7
        (processorPipe.mk [fun _ => none, fun _ => none] 0 :
          processorPipe Unit Unit Unit Nat) ⟨(), []⟩ 2 5 =
      ([], Outcome.ret (some 7), processorPipe.mk [fun _ => none, fun _ => none] 5))
    ∧ (processorPipe.ForwardToChild 7
        (processorPipe.mk [fun _ => none, fun _ => none] 0 :
          processorPipe Unit Unit Unit Nat) ⟨(), []⟩ (-1) 5 =
      ([], Outcome.panics, processorPipe.mk [fun _ => none, fun _ => none] 5)) :=
  ⟨(C1_out_of_bounds 7 (processorPipe.mk [fun _ => none, fun _ => none] 0)
      ⟨(), []⟩ 5 2).1 (by decide),
   (C1_out_of_bounds 7 (processorPipe.mk [fun _ => none, fun _ => none] 0)
      ⟨(), []⟩ 5 (-1)).2 (by decide)⟩

/-- C2: if the consumer at position `k = pre.length` fails on `m` and all
consumers before it succeed, `Forward` invokes exactly consumers `0..k` in
list order (trace `List.range (k+1)`) and returns the failure of consumer
`k`; consumers after `k` are never invoked. -/
theorem C2_forward_fail_fast {P Src Tok Err : Type} (p : processorPipe P Src Tok Err)
    (m : Message P Src Tok) (δ : Nat) (pre : List (Pump P Src Tok Err))
    (c : Pump P Src Tok Err) (post : List (Pump P Src Tok Err)) (e : Err)
    (hch : p.children = pre ++ c :: post)
    (hpre : ∀ x ∈ pre, x m = none) (hc : c m = some e) :
    (p.Forward m δ).1 = List.range (pre.length + 1) ∧
    (p.Forward m δ).2.1 = some e := by
  have h := forwardAux_first_fail m e pre c post 0 hpre hc
  constructor
  · simp [processorPipe.Forward, hch, h, List.range_eq_range']
  · simp [processorPipe.Forward, hch, h]

/-- C2 witness: the spec's concrete scenario — consumers [A, B, C] where B
fails: A and B are invoked once each, C is not, and B's error is
returned. -/
theorem C2_forward_fail_fast_witness :
    ((processorPipe.mk [fun _ => none, fun _ => some 9, fun _ => none] 0 :
        processorPipe Unit Unit Unit Nat).Forward ⟨(), []⟩ 4).1 = [0, 1] ∧
    ((processorPipe.mk [fun _ => none, fun _ => some 9, fun _ => none] 0 :
        processorPipe Unit Unit Unit Nat).Forward ⟨(), []⟩ 4).2.1 = some 9 := by
  have h := C2_forward_fail_fast
    (processorPipe.mk [fun _ => none, fun _ => some 9, fun _ => none] 0 :
      processorPipe Unit Unit Unit Nat) ⟨(), []⟩ 4
    [fun _ => none] (fun _ => some 9) [fun _ => none] 9 rfl
    (by intro x hx; rw [List.mem_singleton] at hx; subst hx; rfl) rfl
  exact ⟨h.1.trans (by decide), h.2⟩

/-- C6: if every consumer succeeds on `m`, `Forward` invokes all `N`
consumers exactly once each in list order (trace `List.range N`) and
returns success; conversely, it returns success only if every consumer
accepted the message. -/
theorem C6_forward_all_ok {P Src Tok Err : Type} (p : processorPipe P Src Tok Err)
    (m : Message P Src Tok) (δ : Nat) :
    ((∀ c ∈ p.children, c m = none) →
      (p.Forward m δ).1 = List.range p.children.length ∧
      (p.Forward m δ).2.1 = none)
    ∧ ((p.Forward m δ).2.1 = none → ∀ c ∈ p.children, c m = none) := by
  constructor
  · intro h
    have ha := forwardAux_all_ok m p.children 0 h
    constructor
    · simp [processorPipe.Forward, ha, List.range_eq_range']
    · simp [processorPipe.Forward, ha]
  · intro h
    exact forwardAux_ok_all m p.children 0 (by simpa [processorPipe.Forward] using h)

/-- C6 witness: two always-succeeding consumers are both invoked, in
order, and the call succeeds. -/
theorem C6_forward_all_ok_witness :
    ((processorPipe.mk [fun _ => none, fun _ => none] 0 :
        processorPipe Unit Unit Unit Nat).Forward ⟨(), []⟩ 3).1 = [0, 1] ∧
    ((processorPipe.mk [fun _ => none, fun _ => none] 0 :
        processorPipe Unit Unit Unit Nat).Forward ⟨(), []⟩ 3).2.1 = none := by
  have h := (C6_forward_all_ok
    (processorPipe.mk [fun _ => none, fun _ => none] 0 :
      processorPipe Unit Unit Unit Nat) ⟨(), []⟩ 3).1
    (by intro c hc; rcases List.mem_cons.mp hc with h1 | h1
        · subst h1; rfl
        · rw [List.mem_singleton] at h1; subst h1; rfl)
  exact ⟨h.1.trans (by decide), h.2⟩

/-- C7: for a valid index `i` (here: `0 ≤ i` and position `i.toNat` exists
in the consumer list), `ForwardToChild` invokes only the consumer at `i`,
exactly once, and returns that consumer's result. -/
theorem C7_forwardToChild_valid {P Src Tok Err : Type} (be : Err)
    (p : processorPipe P Src Tok Err) (m : Message P Src Tok) (δ : Nat) (i : Int)
    (c : Pump P Src Tok Err) (h0 : 0 ≤ i) (hc : p.children[i.toNat]? = some c) :
    (processorPipe.ForwardToChild be p m i δ).1 = [i.toNat] ∧
    (processorPipe.ForwardToChild be p m i δ).2.1 = Outcome.ret (c m) := by
  rw [forwardToChild_hit be p m δ i c h0 hc]
  exact ⟨rfl, rfl⟩

/-- C7 witness: index 1 of a two-consumer router invokes only consumer 1
and returns its (failing) result. -/
theorem C7_forwardToChild_valid_witness :
    (processorPipe.ForwardToChild 7
        (processorPipe.mk [fun _ => none, fun _ => some 3] 0 :
          processorPipe Unit Unit Unit Nat) ⟨(), []⟩ 1 5).1 = [1] ∧
    (processorPipe.ForwardToChild 7
        (processorPipe.mk [fun _ => none, fun _ => some 3] 0 :
          processorPipe Unit Unit Unit Nat) ⟨(), []⟩ 1 5).2.1 =
      Outcome.ret (some 3) :=
  C7_forwardToChild_valid 7
    (processorPipe.mk [fun _ => none, fun _ => some 3] 0 :
      processorPipe Unit Unit Unit Nat) ⟨(), []⟩ 5 1 (fun _ => some 3)
    (by decide) rfl

/-- C3: the `Commit` operation acknowledges each (source, token) entry of the message's
metadata with that source's token, in iteration order: if every source
succeeds it acknowledges all entries and returns success; if the entry at
position `pre.length` is the first to fail, exactly the entries
`pre ++ [(s, v)]` are acknowledged (each visited source once — the trace
keeps the mapping's key uniqueness) and that failure is returned
verbatim. -/
theorem C3_commit_fail_fast {P Src Tok Err : Type} (commitFn : Src → Tok → Option Err)
    (p : processorPipe P Src Tok Err) (m : Message P Src Tok) (δ : Nat) :
    ((∀ st ∈ m.Metadata, commitFn st.1 st.2 = none) →
      (processorPipe.Commit commitFn p m δ).1 = m.Metadata ∧
      (processorPipe.Commit commitFn p m δ).2.1 = none)
    ∧ (∀ (pre : List (Src × Tok)) (s : Src) (v : Tok) (post : List (Src × Tok)) (e : Err),
        m.Metadata = pre ++ (s, v) :: post →
        (∀ st ∈ pre, commitFn st.1 st.2 = none) → commitFn s v = some e →
        (processorPipe.Commit commitFn p m δ).1 = pre ++ [(s, v)] ∧
        (processorPipe.Commit commitFn p m δ).2.1 = some e)
    ∧ ((m.Metadata.map Prod.fst).Nodup →
        ((processorPipe.Commit commitFn p m δ).1.map Prod.fst).Nodup) := by
  refine ⟨?_, ?_, ?_⟩
  · intro h
    have ha := commitAux_all_ok commitFn m.Metadata h
    exact ⟨by simp [processorPipe.Commit, ha], by simp [processorPipe.Commit, ha]⟩
  · intro pre s v post e hmd hpre hsv
    have ha := commitAux_first_fail commitFn s v e pre post hpre hsv
    rw [← hmd] at ha
    exact ⟨by simp [processorPipe.Commit, ha], by simp [processorPipe.Commit, ha]⟩
  · intro hnd
    obtain ⟨n, hn⟩ := commitAux_trace_take commitFn m.Metadata
    have htr : (processorPipe.Commit commitFn p m δ).1 = m.Metadata.take n := by
      simp [processorPipe.Commit, hn]
    rw [htr, List.map_take]
    exact (List.take_sublist n (m.Metadata.map Prod.fst)).nodup hnd

/-- C3 witness: the spec's concrete scenario — metadata
{SourceX ↦ tok1, SourceY ↦ tok2}, both sources succeed: both commits are
issued exactly once and the call succeeds. -/
theorem C3_commit_fail_fast_witness :
    (processorPipe.Commit (fun (_ : Nat) (_ : Nat) => (none : Option Nat))
        (processorPipe.mk [] 0 : processorPipe Unit Nat Nat Nat)
        ⟨(), [(10, 1), (20, 2)]⟩ 6).1 = [(10, 1), (20, 2)] ∧
    (processorPipe.Commit (fun (_ : Nat) (_ : Nat) => (none : Option Nat))
        (processorPipe.mk [] 0 : processorPipe Unit Nat Nat Nat)
        ⟨(), [(10, 1), (20, 2)]⟩ 6).2.1 = none :=
  (C3_commit_fail_fast (fun _ _ => none)
    (processorPipe.mk [] 0 : processorPipe Unit Nat Nat Nat)
    ⟨(), [(10, 1), (20, 2)]⟩ 6).1 (by intro st _; rfl)

/-- C4 (counterexample): the accumulator is an int64 and the `+=` accrual
wraps, so `Duration()` does not always equal the sum of the call bodies'
elapsed times: two `Forward` calls whose bodies each consume `2^63 - 1`
(the largest single `time.Since` reading) leave `Duration()` at `-2`,
while the true sum is `2^64 - 2`. -/
theorem C4_duration_sum_cex :
    (runCalls 7 (fun (_ : Unit) (_ : Unit) => (none : Option Nat))
        (NewPipe ([] : List (Pump Unit Unit Unit Nat)))
        [Call.forward ⟨(), []⟩ (2 ^ 63 - 1),
         Call.forward ⟨(), []⟩ (2 ^ 63 - 1)]).Duration = -2
    ∧ ((([Call.forward (⟨(), []⟩ : Message Unit Unit Unit) (2 ^ 63 - 1),
          Call.forward (⟨(), []⟩ : Message Unit Unit Unit)
            (2 ^ 63 - 1)].map Call.elapsed).sum : Nat) : Int) = 2 ^ 64 - 2
    ∧ ((-2 : Int) ≠ 2 ^ 64 - 2) := by
  exact ⟨by decide, by decide, by decide⟩

/-- C4 (amended): after any sequence of `Forward`/`ForwardToChild`/`Commit`
calls on a freshly constructed router, `Duration()` equals the int64
(two's-complement) reduction of the sum of the wall-clock time consumed by
each call's body, regardless of each call's outcome — every exit path
(success, first-failure abort, bounds-check failure, and even the
negative-index panic path) accrues the whole body's elapsed time via the
deferred `p.time`.  Whenever that sum is below `2^63` (any realistic
accrual) no wraparound occurs and `Duration()` equals the sum exactly. -/
theorem C4_duration_sum {P Src Tok Err : Type} (be : Err)
    (commitFn : Src → Tok → Option Err) (children : List (Pump P Src Tok Err))
    (cs : List (Call P Src Tok)) (h : ∀ c ∈ cs, c.isTimed = true) :
    (runCalls be commitFn (NewPipe children) cs).Duration =
      wrap64 (((cs.map Call.elapsed).sum : Nat) : Int)
    ∧ ((((cs.map Call.elapsed).sum : Nat) : Int) < 2 ^ 63 →
      (runCalls be commitFn (NewPipe children) cs).Duration =
        (((cs.map Call.elapsed).sum : Nat) : Int)) := by
  have hs := runCalls_duration_sum be commitFn cs (NewPipe children) h
    (by norm_num [NewPipe]) (by norm_num [NewPipe])
  have hz : (NewPipe children).duration = 0 := rfl
  rw [hz, zero_add] at hs
  constructor
  · show (runCalls be commitFn (NewPipe children) cs).duration = _
    exact hs
  · intro hlt
    show (runCalls be commitFn (NewPipe children) cs).duration = _
    rw [hs, wrap64_eq_self _ (by omega) hlt]

/-- C4 witness: a failing forward (3), an out-of-bounds indexed forward
(5), a negative-index forward (4), and a commit (2) on an empty-metadata
message accumulate 3 + 5 + 4 + 2 = 14, well below `2^63`. -/
theorem C4_duration_sum_witness :
    (runCalls 7 (fun (_ : Unit) (_ : Unit) => (none : Option Nat))
        (NewPipe [fun _ => some 9])
        [Call.forward ⟨(), []⟩ 3, Call.forwardToChild ⟨(), []⟩ 8 5,
         Call.forwardToChild ⟨(), []⟩ (-1) 4, Call.commit ⟨(), []⟩ 2]).Duration
      = 14 := by
  have h := C4_duration_sum 7 (fun (_ : Unit) (_ : Unit) => (none : Option Nat))
    [fun _ => some 9]
    [Call.forward ⟨(), []⟩ 3, Call.forwardToChild ⟨(), []⟩ 8 5,
     Call.forwardToChild ⟨(), []⟩ (-1) 4, Call.commit ⟨(), []⟩ 2]
    (by intro c hc
        rcases List.mem_cons.mp hc with h1 | hc <;> try subst h1
        · rfl
        rcases List.mem_cons.mp hc with h1 | hc <;> try subst h1
        · rfl
        rcases List.mem_cons.mp hc with h1 | hc <;> try subst h1
        · rfl
        rw [List.mem_singleton] at hc; subst hc; rfl)
  exact (h.2 (by decide)).trans (by decide)

/-- C5: failures are propagated verbatim: the error value returned by
`Forward`, `Commit`, or a valid-index `ForwardToChild` is exactly the value
produced by the first failing consumer/source, with no wrapping, retry or
suppression, and the remaining fan-out is aborted. -/
theorem C5_errors_verbatim {P Src Tok Err : Type} (be : Err)
    (commitFn : Src → Tok → Option Err) (p : processorPipe P Src Tok Err)
    (m : Message P Src Tok) (δ : Nat) :
    (∀ (pre : List (Pump P Src Tok Err)) (c : Pump P Src Tok Err)
        (post : List (Pump P Src Tok Err)) (e : Err),
        p.children = pre ++ c :: post → (∀ x ∈ pre, x m = none) → c m = some e →
        (p.Forward m δ).1 = List.range (pre.length + 1) ∧
        (p.Forward m δ).2.1 = some e)
    ∧ (∀ (pre : List (Src × Tok)) (s : Src) (v : Tok) (post : List (Src × Tok)) (e : Err),
        m.Metadata = pre ++ (s, v) :: post →
        (∀ st ∈ pre, commitFn st.1 st.2 = none) → commitFn s v = some e →
        (processorPipe.Commit commitFn p m δ).1 = pre ++ [(s, v)] ∧
        (processorPipe.Commit commitFn p m δ).2.1 = some e)
    ∧ (∀ (i : Int) (c : Pump P Src Tok Err) (e : Err),
        0 ≤ i → p.children[i.toNat]? = some c → c m = some e →
        (processorPipe.ForwardToChild be p m i δ).2.1 = Outcome.ret (some e)) := by
  refine ⟨?_, ?_, ?_⟩
  · intro pre c post e hch hpre hc
    have h := forwardAux_first_fail m e pre c post 0 hpre hc
    exact ⟨by simp [processorPipe.Forward, hch, h, List.range_eq_range'],
           by simp [processorPipe.Forward, hch, h]⟩
  · intro pre s v post e hmd hpre hsv
    have ha := commitAux_first_fail commitFn s v e pre post hpre hsv
    rw [← hmd] at ha
    exact ⟨by simp [processorPipe.Commit, ha], by simp [processorPipe.Commit, ha]⟩
  · intro i c e h0 hc hce
    rw [forwardToChild_hit be p m δ i c h0 hc, hce]

/-- C5 witness: a consumer failing with error value 9 makes `Forward`
return exactly `some 9`. -/
theorem C5_errors_verbatim_witness :
    ((processorPipe.mk [fun _ => some 9] 0 :
        processorPipe Unit Unit Unit Nat).Forward ⟨(), []⟩ 2).2.1 = some 9 :=
  ((C5_errors_verbatim 7 (fun _ _ => none)
      (processorPipe.mk [fun _ => some 9] 0 : processorPipe Unit Unit Unit Nat)
      ⟨(), []⟩ 2).1 [] (fun _ => some 9) [] 9 rfl (by intro x hx; cases hx) rfl).2

/-- C8: the value of `Duration()` is 0 immediately after construction (`NewPipe` leaves
the accumulator at its zero value) and immediately after `Reset()`;
`Reset` sets the accumulator to exactly 0 (touching nothing else); and
`Duration()` is a pure read: it returns the accumulator and leaves the
router's state unchanged. -/
theorem C8_duration_zero_and_pure {P Src Tok Err : Type} (be : Err)
    (commitFn : Src → Tok → Option Err) (children : List (Pump P Src Tok Err))
    (p : processorPipe P Src Tok Err) :
    (NewPipe children).Duration = 0
    ∧ p.Reset.Duration = 0
    ∧ p.Reset = { p with duration := 0 }
    ∧ p.Duration = p.duration
    ∧ stepCall be commitFn p Call.durationRead = p :=
  ⟨rfl, rfl, rfl, rfl, rfl⟩

/-- C9 (counterexample): the int64 accumulator does not stay non-negative
and non-decreasing at all times: from a fresh router, a `Forward` whose
body consumes `2^63 - 1` followed by a `Forward` consuming `1` (neither a
`Reset`) wraps the accumulator from `2^63 - 1` down to `-2^63 < 0`. -/
theorem C9_router_invariants_cex :
    (runCalls 7 (fun (_ : Unit) (_ : Unit) => (none : Option Nat))
        (NewPipe ([] : List (Pump Unit Unit Unit Nat)))
        [Call.forward ⟨(), []⟩ (2 ^ 63 - 1)]).duration = 2 ^ 63 - 1
    ∧ (runCalls 7 (fun (_ : Unit) (_ : Unit) => (none : Option Nat))
        (NewPipe ([] : List (Pump Unit Unit Unit Nat)))
        [Call.forward ⟨(), []⟩ (2 ^ 63 - 1),
         Call.forward ⟨(), []⟩ 1]).duration = -(2 ^ 63)
    ∧ ((-(2 ^ 63) : Int) < 0)
    ∧ ((-(2 ^ 63) : Int) < 2 ^ 63 - 1) := by
  exact ⟨by decide, by decide, by decide, by decide⟩

/-- C9 (amended): the consumer list's length and order are fixed at
construction: no call (`Forward`, `ForwardToChild`, `Commit`, `Reset`,
`Duration`) mutates `children`, for a single step and for any call
sequence.  The int64 duration accumulator: a non-`Reset` step whose
accrual does not overflow int64 (`duration + elapsed < 2^63`) is
non-decreasing and keeps a non-negative accumulator non-negative, and a
non-negative accumulator stays non-negative across any call sequence
whose total accrual stays below `2^63`; beyond that the int64 `+=` wraps
and the accumulator can go negative. -/
theorem C9_router_invariants {P Src Tok Err : Type} (be : Err)
    (commitFn : Src → Tok → Option Err) (p : processorPipe P Src Tok Err)
    (c : Call P Src Tok) (cs : List (Call P Src Tok)) :
    (stepCall be commitFn p c).children = p.children
    ∧ (runCalls be commitFn p cs).children = p.children
    ∧ (c ≠ Call.reset → 0 ≤ p.duration →
        p.duration + (c.elapsed : Int) < 2 ^ 63 →
        p.duration ≤ (stepCall be commitFn p c).duration ∧
          0 ≤ (stepCall be commitFn p c).duration)
    ∧ (0 ≤ p.duration →
        p.duration + (((cs.map Call.elapsed).sum : Nat) : Int) < 2 ^ 63 →
        0 ≤ (runCalls be commitFn p cs).duration) := by
  refine ⟨stepCall_children be commitFn p c,
    runCalls_children be commitFn cs p, ?_,
    fun h0 hb => (runCalls_duration_bounded be commitFn cs p h0 hb).1⟩
  intro hne h0 hb
  rcases stepCall_duration_cases be commitFn p c with ⟨_, heq⟩ | ⟨hres, _⟩ | ⟨_, heq⟩
  · have hin : wrap64 (p.duration + (c.elapsed : Int))
        = p.duration + (c.elapsed : Int) :=
      wrap64_eq_self _ (by omega) hb
    constructor <;> omega
  · exact absurd hres hne
  · constructor <;> omega

/-- C9 witness: a forward call on a fresh router (well within int64 range)
keeps the accumulator non-negative and non-decreasing, and a
forward-then-reset sequence leaves it non-negative. -/
theorem C9_router_invariants_witness :
    ((processorPipe.mk ([] : List (Pump Unit Unit Unit Nat)) 0).duration ≤
      (stepCall 7 (fun (_ : Unit) (_ : Unit) => (none : Option Nat))
        (processorPipe.mk [] 0) (Call.forward ⟨(), []⟩ 2)).duration)
    ∧ (0 ≤ (stepCall 7 (fun (_ : Unit) (_ : Unit) => (none : Option Nat))
        (processorPipe.mk [] 0) (Call.forward ⟨(), []⟩ 2)).duration)
    ∧ (0 ≤ (runCalls 7 (fun (_ : Unit) (_ : Unit) => (none : Option Nat))
        (processorPipe.mk [] 0)
        [Call.forward ⟨(), []⟩ 2, Call.reset]).duration) := by
  have h := C9_router_invariants 7 (fun (_ : Unit) (_ : Unit) => (none : Option Nat))
    (processorPipe.mk [] 0) (Call.forward ⟨(), []⟩ 2)
    [Call.forward ⟨(), []⟩ 2, Call.reset]
  have hstep := h.2.2.1 (fun hx => Call.noConfusion hx) (by decide) (by decide)
  exact ⟨hstep.1, hstep.2, h.2.2.2 (by decide) (by decide)⟩

/-- C10: `Commit` on a message with empty metadata returns success without
invoking any source, and `Forward` on a router with an empty consumer list
returns success without invoking anything; both still accrue the call's
elapsed time. -/
theorem C10_empty_cases {P Src Tok Err : Type} (commitFn : Src → Tok → Option Err)
    (p : processorPipe P Src Tok Err) (pl : P) (m : Message P Src Tok)
    (d : Int) (δ : Nat) :
    processorPipe.Commit commitFn p ⟨pl, []⟩ δ =
      ([], none, { p with duration := wrap64 (p.duration + δ) })
    ∧ (processorPipe.mk [] d : processorPipe P Src Tok Err).Forward m δ =
      ([], none, processorPipe.mk [] (wrap64 (d + δ))) :=
  ⟨rfl, rfl⟩

end Streams
